import Mathlib

/-!
Shallow embedding of the CoinGecko → BigQuery ETL pipeline
(`coingekco_data_pipeline.py`): the Fetcher (`fetch_coingecko_data`),
the two loaders (`load_raw_to_bigquery`, `load_clean_to_bigquery`),
the Cleaner (`clean_data`) and the module-level dataset-ensure loop,
together with theorems settling the specification claims.
-/

namespace CoinGecko

/-- A cell value of a dataframe / warehouse row: a JSON-ish scalar.
`null` stands for Python `None` / pandas `NaN`. -/
inductive Value
  | null
  | str (s : String)
  | num (n : Int)
  deriving DecidableEq, Repr

/-- A row is an association list from column name to value, mirroring one
JSON record of the CoinGecko response / one warehouse row. -/
abbrev Row := List (String × Value)

/-- Cell lookup: the value of column `key` in row `r`; a column absent from
the row reads as `null` (pandas fills missing cells with `NaN`). -/
def getVal : Row → String → Value
  | [], _ => Value.null
  | (k, v) :: r, key => if k = key then v else getVal r key

/-- Column assignment, as in `df[key] = v` restricted to one row: overwrite
the first binding of `key`, or append it if the row lacks the column. -/
def setCol : Row → String → Value → Row
  | [], key, v => [(key, v)]
  | (k, w) :: r, key, v =>
      if k = key then (k, v) :: r else (k, w) :: setCol r key v

/-- An HTTP response for one page request: status code and decoded JSON
body (a list of market rows). -/
structure HttpResp where
  status : Nat
  data : List Row
  deriving DecidableEq, Repr

/-- Observable actions of the fetch loop: issuing the page request, and the
two `time.sleep` calls (5 s on a 429, `delay` seconds after a success). -/
inductive FetchAction
  | request (page : Nat)
  | sleep (seconds : Nat)
  deriving DecidableEq, Repr

/-- The body of the `for page in range(1, pages + 1)` loop of
`fetch_coingecko_data`, over an explicit list of page numbers.
`http` gives the response to the (unique) request for each page.

* status 429: print, `time.sleep(5)`, `continue` — the loop moves on to
  the remaining pages;
* `response.raise_for_status()`: any status ≥ 400 raises, aborting with
  that status;
* otherwise `all_data.extend(data)` and `time.sleep(delay)`.

Returns the trace of actions and either the accumulated rows or the
status that `raise_for_status` raised on. -/
def fetchPages (http : Nat → HttpResp) (delay : Nat) :
    List Nat → List FetchAction × Except Nat (List Row)
  | [] => ([], Except.ok [])
  | p :: ps =>
      let resp := http p
      if resp.status = 429 then
        let rest := fetchPages http delay ps
        (FetchAction.request p :: FetchAction.sleep 5 :: rest.1, rest.2)
      else if 400 ≤ resp.status then
        ([FetchAction.request p], Except.error resp.status)
      else
        let rest := fetchPages http delay ps
        (FetchAction.request p :: FetchAction.sleep delay :: rest.1,
         rest.2.map (fun rows => resp.data ++ rows))

/-- `fetch_coingecko_data(pages, per_page, delay)`: run the page loop over
pages `1 .. pages`, then stamp every accumulated row with the single
timestamp `now` (`df["fetch_time"] = datetime.utcnow().isoformat()`,
captured once after the loop). `perPage` is only forwarded as a query
parameter, so here it does not affect the result beyond what `http`
already encodes. -/
def fetch_coingecko_data (http : Nat → HttpResp) (now : String)
    (pages perPage delay : Nat) :
    List FetchAction × Except Nat (List Row) :=
  ((fetchPages http delay (List.range' 1 pages)).1,
   (fetchPages http delay (List.range' 1 pages)).2.map (fun rows =>
     rows.map (fun row => setCol row "fetch_time" (Value.str now))))

/-- A dataframe: column list plus rows (the shape `pd.DataFrame` and a
BigQuery query result share). -/
structure DataFrame where
  cols : List String
  rows : List Row
  deriving DecidableEq, Repr

/-- The column set implied by a list of JSON records: each key in order of
first appearance (how `pd.DataFrame(all_data)` forms its columns). -/
def colsOfRows (rows : List Row) : List String :=
  rows.foldl
    (fun acc r =>
      acc ++ (r.map Prod.fst).filter (fun k => decide (k ∉ acc))) []

/-- String fetch-time values present in a table (non-string cells and
missing cells are ignored, as SQL `MAX` ignores NULLs). -/
def fetchTimes (table : List Row) : List String :=
  table.filterMap (fun r =>
    match getVal r "fetch_time" with
    | Value.str s => some s
    | _ => none)

/-- Lexicographic strict order on character lists (SQL string
comparison). -/
def charListLt : List Char → List Char → Bool
  | [], [] => false
  | [], _ :: _ => true
  | _ :: _, [] => false
  | c :: cs, d :: ds =>
      if c.toNat < d.toNat then true
      else if d.toNat < c.toNat then false
      else charListLt cs ds

/-- Lexicographic strict order on strings. -/
def strLtB (a b : String) : Bool := charListLt a.data b.data

/-- The larger of two strings in lexicographic order. -/
def strMax (a b : String) : String := if strLtB a b then b else a

/-- `SELECT MAX(fetch_time) FROM raw`: the lexicographically maximal
fetch-time string, or `none` on an empty column. -/
def maxFetchTime (table : List Row) : Option String :=
  match fetchTimes table with
  | [] => none
  | t :: ts => some (ts.foldl strMax t)

/-- The Cleaner's read query:
`SELECT * FROM raw WHERE fetch_time = (SELECT MAX(fetch_time) FROM raw)`. -/
def queryLatestBatch (table : List Row) : List Row :=
  match maxFetchTime table with
  | none => []
  | some m => table.filter (fun r => decide (getVal r "fetch_time" = Value.str m))

/-- `df.drop_duplicates(subset=["id"])` generalised to any key column:
keep a row iff its key value was not seen in an earlier row (`seen`
accumulates the key values already kept). -/
def dropDupBy (key : String) : List Row → List Value → List Row
  | [], _ => []
  | r :: rs, seen =>
      if getVal r key ∈ seen then dropDupBy key rs seen
      else r :: dropDupBy key rs (getVal r key :: seen)

/-- `df.dropna(subset=["id", "symbol", "name"])` as a row predicate. -/
def keyFieldsPresent (r : Row) : Bool :=
  decide (getVal r "id" ≠ Value.null ∧ getVal r "symbol" ≠ Value.null ∧
    getVal r "name" ≠ Value.null)

/-- The Cleaner's fixed `keep_cols` list. -/
def keep_cols : List String :=
  ["id", "symbol", "name", "current_price", "market_cap",
   "total_volume", "high_24h", "low_24h", "price_change_percentage_24h",
   "fetch_time"]

/-- `df[[col for col in keep_cols if col in df.columns]]` restricted to one
row: rebuild the row with exactly the given columns, in that order. -/
def projectRow (cols : List String) (r : Row) : Row :=
  cols.map (fun c => (c, getVal r c))

/-- `clean_data`: read the rows of the latest fetch batch, drop duplicate
ids (first kept), drop rows with a null key field, and project to the
`keep_cols` that exist among the input's columns. -/
def clean_data (raw : DataFrame) : DataFrame :=
  let latest := queryLatestBatch raw.rows
  let dd := dropDupBy "id" latest []
  let dn := dd.filter keyFieldsPresent
  let outCols := keep_cols.filter (fun c => decide (c ∈ raw.cols))
  ⟨outCols, dn.map (projectRow outCols)⟩

/-- Python `str()` of a cell value, as `df['fetch_time'].astype(str)`
produces it (`str(nan) = "nan"`). -/
def valueStr : Value → String
  | Value.null => "nan"
  | Value.str s => s
  | Value.num n => toString n

/-- The shared body of both loaders: if the batch has a `fetch_time`
column, coerce that column to its string representation; then append the
rows to the target table (`WRITE_APPEND`). -/
def load_table (table : List Row) (df : DataFrame) : List Row :=
  let rows :=
    if "fetch_time" ∈ df.cols then
      df.rows.map (fun r =>
        setCol r "fetch_time" (Value.str (valueStr (getVal r "fetch_time"))))
    else df.rows
  table ++ rows

/-- The two warehouse tables the job writes:
`crypto_raw.coingecko_data` and `crypto_clean.coingecko_data`. -/
structure Warehouse where
  raw : List Row
  clean : List Row
  deriving DecidableEq, Repr

/-- `load_raw_to_bigquery`: append the fetched batch (fetch_time coerced
to string) to the raw table. -/
def load_raw_to_bigquery (wh : Warehouse) (df : DataFrame) : Warehouse :=
  { wh with raw := load_table wh.raw df }

/-- `load_clean_to_bigquery`: append the cleaned batch (fetch_time coerced
to string) to the clean table. -/
def load_clean_to_bigquery (wh : Warehouse) (df : DataFrame) : Warehouse :=
  { wh with clean := load_table wh.clean df }

/-- One run of the DAG `fetch_task >> load_raw_task >> clean_task >>
load_clean_task`. A fetch error aborts the run before any load: the
warehouse is returned unchanged together with the error status.
Otherwise the fetched batch is appended raw, cleaned from the raw table,
and the cleaned batch appended to the clean table. -/
def runPipeline (http : Nat → HttpResp) (now : String)
    (pages perPage delay : Nat) (wh : Warehouse) : Warehouse × Option Nat :=
  match (fetch_coingecko_data http now pages perPage delay).2 with
  | Except.error e => (wh, some e)
  | Except.ok batch =>
      let wh1 := load_raw_to_bigquery wh ⟨colsOfRows batch, batch⟩
      let cleaned := clean_data ⟨colsOfRows wh1.raw, wh1.raw⟩
      let wh2 := load_clean_to_bigquery wh1 cleaned
      (wh2, none)

/-- The module-level ensure step for one dataset:
`try: get_dataset(ds) except: create_dataset(ds)`. `get_dataset`
succeeds iff the dataset is already in the project's dataset store; the
returned flag records whether a create call was issued. -/
def ensureDataset (existing : List String) (ds : String) :
    List String × Bool :=
  if ds ∈ existing then (existing, false) else (existing ++ [ds], true)

/-- The datasets the module-level loop ensures. -/
def datasetList : List String := ["crypto_raw", "crypto_clean"]

/-- `for ds in [raw_dataset, clean_dataset]: ensure ds`. -/
def ensureDatasets (s : List String) : List String :=
  datasetList.foldl (fun acc ds => (ensureDataset acc ds).1) s

/-! ### Basic lemmas about rows and projections -/

theorem getVal_setCol_self (r : Row) (k : String) (v : Value) :
    getVal (setCol r k v) k = v := by
  induction r with
  | nil => simp [setCol, getVal]
  | cons p r ih =>
      obtain ⟨k', w⟩ := p
      by_cases h : k' = k
      · simp [setCol, getVal, h]
      · simp [setCol, getVal, h, ih]

theorem getVal_setCol_ne (r : Row) (k k' : String) (v : Value)
    (h : k' ≠ k) : getVal (setCol r k v) k' = getVal r k' := by
  have h' : k ≠ k' := Ne.symm h
  induction r with
  | nil => simp [setCol, getVal, h']
  | cons p r ih =>
      obtain ⟨k0, w⟩ := p
      by_cases h0 : k0 = k
      · subst h0
        simp [setCol, getVal, h']
      · by_cases h1 : k0 = k'
        · simp [setCol, getVal, h0, h1, h]
        · simp [setCol, getVal, h0, h1, ih]

theorem projectRow_keys (cols : List String) (r : Row) :
    (projectRow cols r).map Prod.fst = cols := by
  rw [projectRow, List.map_map]
  exact List.map_id cols

theorem getVal_projectRow (cols : List String) (r : Row) (k : String)
    (h : k ∈ cols) : getVal (projectRow cols r) k = getVal r k := by
  induction cols with
  | nil => cases h
  | cons c cs ih =>
      by_cases hc : c = k
      · subst hc; simp [projectRow, getVal]
      · rcases List.mem_cons.mp h with h' | h'
        · exact absurd h'.symm hc
        · simpa [projectRow, getVal, hc] using ih h'

/-! ### Lemmas about the dedup pass -/

theorem dropDupBy_sublist (key : String) :
    ∀ (rows : List Row) (seen : List Value),
      (dropDupBy key rows seen).Sublist rows := by
  intro rows
  induction rows with
  | nil => intro seen; simp [dropDupBy]
  | cons r rs ih =>
      intro seen
      by_cases h : getVal r key ∈ seen
      · simpa [dropDupBy, h] using (ih seen).trans (List.sublist_cons_self r rs)
      · simpa [dropDupBy, h] using (ih (getVal r key :: seen)).cons₂ r

theorem mem_dropDupBy (key : String) :
    ∀ (rows : List Row) (seen : List Value) (r : Row),
      r ∈ dropDupBy key rows seen →
      getVal r key ∉ seen ∧
        rows.find? (fun t => decide (getVal t key = getVal r key)) = some r := by
  intro rows
  induction rows with
  | nil => intro seen r h; simp [dropDupBy] at h
  | cons r0 rs ih =>
      intro seen r h
      by_cases h0 : getVal r0 key ∈ seen
      · rw [dropDupBy, if_pos h0] at h
        obtain ⟨hseen, hfind⟩ := ih seen r h
        have hne : ¬ (getVal r0 key = getVal r key) := by
          intro he; exact hseen (he ▸ h0)
        refine ⟨hseen, ?_⟩
        rw [List.find?_cons_of_neg, hfind]
        simpa using hne
      · rw [dropDupBy, if_neg h0] at h
        rcases List.mem_cons.mp h with rfl | h
        · refine ⟨h0, ?_⟩
          rw [List.find?_cons_of_pos]
          simp
        · obtain ⟨hseen, hfind⟩ := ih (getVal r0 key :: seen) r h
          have hcons := List.mem_cons.not.mp hseen
          push_neg at hcons
          refine ⟨hcons.2, ?_⟩
          rw [List.find?_cons_of_neg, hfind]
          simpa using fun he => hcons.1 he.symm

theorem nodup_keys_dropDupBy (key : String) :
    ∀ (rows : List Row) (seen : List Value),
      ((dropDupBy key rows seen).map (fun r => getVal r key)).Nodup := by
  intro rows
  induction rows with
  | nil => intro seen; simp [dropDupBy]
  | cons r0 rs ih =>
      intro seen
      by_cases h0 : getVal r0 key ∈ seen
      · simpa [dropDupBy, h0] using ih seen
      · rw [dropDupBy, if_neg h0]
        refine List.nodup_cons.mpr ⟨?_, ih (getVal r0 key :: seen)⟩
        intro hmem
        rcases List.mem_map.mp hmem with ⟨r, hr, hkey⟩
        have := (mem_dropDupBy key rs (getVal r0 key :: seen) r hr).1
        exact this (by simp [hkey])

/-! ### Lemmas about the latest-batch query -/

theorem mem_queryLatestBatch (table : List Row) (r : Row)
    (h : r ∈ queryLatestBatch table) :
    r ∈ table ∧ ∃ m, maxFetchTime table = some m ∧
      getVal r "fetch_time" = Value.str m := by
  unfold queryLatestBatch at h
  cases hmax : maxFetchTime table with
  | none => rw [hmax] at h; cases h
  | some m =>
      rw [hmax] at h
      obtain ⟨hmem, hval⟩ := List.mem_filter.mp h
      exact ⟨hmem, m, rfl, by simpa using hval⟩

theorem charListLt_irrefl : ∀ l, charListLt l l = false := by
  intro l
  induction l with
  | nil => rfl
  | cons c cs ih => simp [charListLt, ih]

theorem charListLt_neg_trans :
    ∀ (l₁ l₂ l₃ : List Char), charListLt l₁ l₂ = false →
      charListLt l₂ l₃ = false → charListLt l₁ l₃ = false := by
  intro l₁
  induction l₁ with
  | nil =>
      intro l₂ l₃ h12 h23
      cases l₂ with
      | nil => exact h23
      | cons d ds => simp [charListLt] at h12
  | cons c cs ih =>
      intro l₂ l₃ h12 h23
      cases l₃ with
      | nil => rfl
      | cons e es =>
          cases l₂ with
          | nil => simp [charListLt] at h23
          | cons d ds =>
              simp only [charListLt] at h12 h23 ⊢
              by_cases hcd : c.toNat < d.toNat
              · simp [hcd] at h12
              · by_cases hde : d.toNat < e.toNat
                · simp [hde] at h23
                · by_cases hce : c.toNat < e.toNat
                  · omega
                  · by_cases hec : e.toNat < c.toNat
                    · simp [hce, hec]
                    · have hdc : ¬ d.toNat < c.toNat := by omega
                      have hed : ¬ e.toNat < d.toNat := by omega
                      simp [hcd, hdc] at h12
                      simp [hde, hed] at h23
                      simp [hce, hec, ih ds es h12 h23]

theorem charListLt_asymm :
    ∀ (l₁ l₂ : List Char), charListLt l₁ l₂ = true →
      charListLt l₂ l₁ = false := by
  intro l₁
  induction l₁ with
  | nil =>
      intro l₂ h
      cases l₂ with
      | nil => simp [charListLt] at h
      | cons d ds => rfl
  | cons c cs ih =>
      intro l₂ h
      cases l₂ with
      | nil => simp [charListLt] at h
      | cons d ds =>
          simp only [charListLt] at h ⊢
          by_cases hcd : c.toNat < d.toNat
          · have hdc : ¬ d.toNat < c.toNat := by omega
            simp [hcd, hdc]
          · by_cases hdc : d.toNat < c.toNat
            · simp [hcd, hdc] at h
            · simp only [hcd, hdc, if_false] at h ⊢
              simpa using ih ds (by simpa using h)

theorem strLtB_strMax_left (a b : String) :
    strLtB (strMax a b) a = false := by
  by_cases h : strLtB a b = true
  · have hb : strMax a b = b := by unfold strMax; rw [if_pos h]
    rw [hb]
    exact charListLt_asymm a.data b.data h
  · have ha : strMax a b = a := by unfold strMax; rw [if_neg h]
    rw [ha]
    exact charListLt_irrefl a.data

theorem strLtB_strMax_right (a b : String) :
    strLtB (strMax a b) b = false := by
  by_cases h : strLtB a b = true
  · have hb : strMax a b = b := by unfold strMax; rw [if_pos h]
    rw [hb]
    exact charListLt_irrefl b.data
  · have ha : strMax a b = a := by unfold strMax; rw [if_neg h]
    rw [ha]
    simpa using h

theorem strLtB_false_trans (a b c : String)
    (h1 : strLtB a b = false) (h2 : strLtB b c = false) :
    strLtB a c = false :=
  charListLt_neg_trans a.data b.data c.data h1 h2

theorem foldl_strMax_mem (l : List String) (a : String) :
    l.foldl strMax a = a ∨ l.foldl strMax a ∈ l := by
  induction l generalizing a with
  | nil => simp
  | cons b bs ih =>
      rw [List.foldl_cons]
      rcases ih (strMax a b) with h | h
      · by_cases hab : strLtB a b = true
        · have hb : strMax a b = b := by unfold strMax; rw [if_pos hab]
          right
          rw [h, hb]
          exact List.mem_cons_self b bs
        · have ha : strMax a b = a := by unfold strMax; rw [if_neg hab]
          left
          rw [h, ha]
      · right; exact List.mem_cons_of_mem b h

theorem strLtB_foldl_strMax (l : List String) (a : String) :
    strLtB (l.foldl strMax a) a = false ∧
      ∀ x ∈ l, strLtB (l.foldl strMax a) x = false := by
  induction l generalizing a with
  | nil => simpa using charListLt_irrefl a.data
  | cons b bs ih =>
      rw [List.foldl_cons]
      obtain ⟨h1, h2⟩ := ih (strMax a b)
      refine ⟨strLtB_false_trans _ _ _ h1 (strLtB_strMax_left a b), ?_⟩
      intro x hx
      rcases List.mem_cons.mp hx with rfl | hx
      · exact strLtB_false_trans _ _ _ h1 (strLtB_strMax_right a x)
      · exact h2 x hx

theorem maxFetchTime_isMax (table : List Row) (m : String)
    (h : maxFetchTime table = some m) :
    ∀ t ∈ table, ∀ u, getVal t "fetch_time" = Value.str u →
      strLtB m u = false := by
  intro t ht u hu
  have hmem : u ∈ fetchTimes table := by
    unfold fetchTimes
    exact List.mem_filterMap.mpr ⟨t, ht, by rw [hu]⟩
  unfold maxFetchTime at h
  cases hft : fetchTimes table with
  | nil => rw [hft] at h; cases h
  | cons t0 ts =>
      rw [hft] at h hmem
      obtain hm := Option.some.inj h
      rcases List.mem_cons.mp hmem with rfl | hmem
      · exact hm ▸ (strLtB_foldl_strMax ts u).1
      · exact hm ▸ (strLtB_foldl_strMax ts t0).2 u hmem

/-! ### Lemmas about the fetch loop -/

theorem fetchPages_count_request (http : Nat → HttpResp) (delay : Nat) :
    ∀ (ps : List Nat) (q : Nat),
      (fetchPages http delay ps).1.count (FetchAction.request q) ≤
        ps.count q := by
  intro ps
  induction ps with
  | nil => intro q; simp [fetchPages]
  | cons p ps ih =>
      intro q
      by_cases h429 : (http p).status = 429
      · rw [fetchPages, if_pos h429]
        by_cases hq : p = q
        · subst hq
          simp only [List.count_cons]
          simpa using Nat.add_le_add_right (by simpa using ih p) 1
        · have h1 : (FetchAction.request p == FetchAction.request q) = false := by
            simp [hq]
          simp only [List.count_cons, h1]
          simpa [hq] using ih q
      · by_cases herr : 400 ≤ (http p).status
        · rw [fetchPages, if_neg h429, if_pos herr]
          by_cases hq : p = q
          · subst hq; simp [List.count_cons]
          · have h1 : (FetchAction.request p == FetchAction.request q) = false := by
              simp [hq]
            simp [List.count_cons, h1, hq]
        · rw [fetchPages, if_neg h429, if_neg herr]
          by_cases hq : p = q
          · subst hq
            simp only [List.count_cons]
            simpa using Nat.add_le_add_right (by simpa using ih p) 1
          · have h1 : (FetchAction.request p == FetchAction.request q) = false := by
              simp [hq]
            simp only [List.count_cons, h1]
            simpa [hq] using ih q

theorem fetchPages_ok_of_success (http : Nat → HttpResp) (delay : Nat) :
    ∀ (ps : List Nat), (∀ p ∈ ps, (http p).status < 400) →
      (fetchPages http delay ps).2 =
        Except.ok (ps.flatMap fun p => (http p).data) := by
  intro ps
  induction ps with
  | nil => intro _; simp [fetchPages]
  | cons p ps ih =>
      intro h
      have hp : (http p).status < 400 := h p (List.mem_cons_self p ps)
      have h429 : ¬ (http p).status = 429 := by omega
      have herr : ¬ 400 ≤ (http p).status := by omega
      rw [fetchPages, if_neg h429, if_neg herr]
      simp only [List.flatMap_cons]
      rw [ih (fun q hq => h q (List.mem_cons_of_mem p hq))]
      rfl

theorem fetchPages_error_of_mem (http : Nat → HttpResp) (delay : Nat) :
    ∀ (ps : List Nat) (p : Nat), p ∈ ps → 400 ≤ (http p).status →
      (http p).status ≠ 429 →
      ∃ e, (fetchPages http delay ps).2 = Except.error e ∧
        400 ≤ e ∧ e ≠ 429 := by
  intro ps
  induction ps with
  | nil => intro p h; cases h
  | cons q qs ih =>
      intro p hmem h400 h429
      by_cases hq429 : (http q).status = 429
      · have hpq : p ≠ q := fun he => h429 (he ▸ hq429)
        have hmem' : p ∈ qs := by
          rcases List.mem_cons.mp hmem with rfl | h
          · exact absurd rfl hpq
          · exact h
        obtain ⟨e, he, hb⟩ := ih p hmem' h400 h429
        refine ⟨e, ?_, hb⟩
        rw [fetchPages, if_pos hq429]
        exact he
      · by_cases hqerr : 400 ≤ (http q).status
        · refine ⟨(http q).status, ?_, hqerr, hq429⟩
          rw [fetchPages, if_neg hq429, if_pos hqerr]
        · have hpq : p ≠ q := by
            intro he; exact hqerr (he ▸ h400)
          have hmem' : p ∈ qs := by
            rcases List.mem_cons.mp hmem with rfl | h
            · exact absurd rfl hpq
            · exact h
          obtain ⟨e, he, hb⟩ := ih p hmem' h400 h429
          refine ⟨e, ?_, hb⟩
          rw [fetchPages, if_neg hq429, if_neg hqerr]
          simp only [he]
          rfl

theorem length_flatMap_le (http : Nat → HttpResp) (n : Nat) :
    ∀ (ps : List Nat), (∀ p ∈ ps, (http p).data.length ≤ n) →
      (ps.flatMap fun p => (http p).data).length ≤ n * ps.length := by
  intro ps
  induction ps with
  | nil => intro _; simp
  | cons p ps ih =>
      intro h
      rw [List.flatMap_cons, List.length_append, List.length_cons,
        Nat.mul_succ]
      have h1 := h p (List.mem_cons_self p ps)
      have h2 := ih fun q hq => h q (List.mem_cons_of_mem p hq)
      omega

/-! ### Concrete example data -/

/-- A market row for bitcoin (fetch batch `t1`). -/
def exRowBtc : Row :=
  [("id", Value.str "btc"), ("symbol", Value.str "BTC"),
   ("name", Value.str "Bitcoin"), ("current_price", Value.num 100),
   ("fetch_time", Value.str "t1")]

/-- A duplicate-id bitcoin row (same id, different price). -/
def exRowBtcDup : Row :=
  [("id", Value.str "btc"), ("symbol", Value.str "BTC"),
   ("name", Value.str "Bitcoin"), ("current_price", Value.num 101),
   ("fetch_time", Value.str "t1")]

/-- A row with a null id. -/
def exRowNullId : Row :=
  [("id", Value.null), ("symbol", Value.str "X"),
   ("name", Value.str "Y"), ("fetch_time", Value.str "t1")]

/-- An ethereum row from an earlier fetch batch `t0`. -/
def exRowEthOld : Row :=
  [("id", Value.str "eth"), ("symbol", Value.str "ETH"),
   ("name", Value.str "Ethereum"), ("current_price", Value.num 7),
   ("fetch_time", Value.str "t0")]

/-- A raw table holding an old batch plus a latest batch with a duplicate
id and a null id, as in the spec's cleaning scenario. -/
def exRaw : DataFrame :=
  ⟨["id", "symbol", "name", "current_price", "fetch_time"],
   [exRowEthOld, exRowBtc, exRowBtcDup, exRowNullId]⟩

/-- An upstream that rate-limits page 1 forever and serves page 2. -/
def ex429Http : Nat → HttpResp := fun p =>
  if p = 1 then ⟨429, [exRowBtc]⟩ else ⟨200, [exRowEthOld]⟩

/-- An upstream that always succeeds with a single bitcoin row. -/
def exOkHttp : Nat → HttpResp := fun _ => ⟨200, [exRowBtc]⟩

/-- An upstream whose page 2 answers HTTP 500. -/
def exErrHttp : Nat → HttpResp := fun p =>
  if p = 2 then ⟨500, []⟩ else ⟨200, [exRowBtc]⟩

/-- The bitcoin row as stamped by a fetch cycle at timestamp `T`. -/
def exStampedBtc : Row :=
  [("id", Value.str "btc"), ("symbol", Value.str "BTC"),
   ("name", Value.str "Bitcoin"), ("current_price", Value.num 100),
   ("fetch_time", Value.str "T")]

/-- The ethereum row as stamped by a fetch cycle at timestamp `T`. -/
def exStampedEth : Row :=
  [("id", Value.str "eth"), ("symbol", Value.str "ETH"),
   ("name", Value.str "Ethereum"), ("current_price", Value.num 7),
   ("fetch_time", Value.str "T")]

/-! ### Claim C1 -/

/-- C1, counterexample: the claim says that on HTTP 429 the Fetcher
reissues the request for the same page without advancing the page
counter, retrying until the page succeeds. With page 1 answering 429 and
page 2 succeeding, a two-page run issues the page-1 request exactly once,
advances past it to page 2, and completes successfully with only page 2's
rows — so no reissue of page 1 ever happens. -/
theorem C1_counterexample :
    (fetch_coingecko_data ex429Http "T" 2 250 4).1 =
      [FetchAction.request 1, FetchAction.sleep 5,
       FetchAction.request 2, FetchAction.sleep 4] ∧
    (fetch_coingecko_data ex429Http "T" 2 250 4).1.count
      (FetchAction.request 1) = 1 ∧
    (fetch_coingecko_data ex429Http "T" 2 250 4).2 =
      Except.ok [exStampedEth] :=
  ⟨rfl, rfl, rfl⟩

/-- C1, amended: on HTTP 429 the Fetcher pauses 5 seconds and then skips
the page — the loop moves on to the remaining pages, the 429'd page's
request is never reissued (every page is requested at most as often as it
occurs in the page list), and the run continues with the 429'd page's
rows absent. -/
theorem C1_429_skips_page (http : Nat → HttpResp) (delay p : Nat)
    (ps : List Nat) (h : (http p).status = 429) :
    fetchPages http delay (p :: ps) =
      (FetchAction.request p :: FetchAction.sleep 5 ::
        (fetchPages http delay ps).1,
       (fetchPages http delay ps).2) ∧
    ∀ (qs : List Nat) (q : Nat),
      (fetchPages http delay qs).1.count (FetchAction.request q) ≤
        qs.count q := by
  constructor
  · rw [fetchPages, if_pos h]
  · exact fun qs q => fetchPages_count_request http delay qs q

/-- C1 witness: the amended theorem applied to the concrete rate-limited
upstream at page 1 with remaining page list `[2]`. -/
theorem C1_429_skips_page_witness :
    (ex429Http 1).status = 429 ∧
    (fetchPages ex429Http 4 [1, 2] =
      (FetchAction.request 1 :: FetchAction.sleep 5 ::
        (fetchPages ex429Http 4 [2]).1,
       (fetchPages ex429Http 4 [2]).2) ∧
    ∀ (qs : List Nat) (q : Nat),
      (fetchPages ex429Http 4 qs).1.count (FetchAction.request q) ≤
        qs.count q) :=
  ⟨by decide, C1_429_skips_page ex429Http 4 1 [2] (by decide)⟩

/-! ### Claim C2 -/

/-- C2: whenever a fetch cycle completes successfully, every row of the
output batch carries the same `fetch_time` value — the single timestamp
`now` captured once after all pages were fetched. -/
theorem C2_single_fetch_time (http : Nat → HttpResp) (now : String)
    (pages perPage delay : Nat) (rows : List Row)
    (h : (fetch_coingecko_data http now pages perPage delay).2 =
      Except.ok rows) :
    ∀ r ∈ rows, getVal r "fetch_time" = Value.str now := by
  intro r hr
  unfold fetch_coingecko_data at h
  cases hres : (fetchPages http delay (List.range' 1 pages)).2 with
  | error e => rw [hres] at h; cases h
  | ok rows0 =>
      rw [hres] at h
      simp only [Except.map] at h
      rcases Except.ok.inj h with rfl
      rcases List.mem_map.mp hr with ⟨r0, _, rfl⟩
      exact getVal_setCol_self r0 "fetch_time" (Value.str now)

/-- C2 witness: a one-page fetch against the always-succeeding upstream,
evaluated concretely; its single row is stamped with the timestamp. -/
theorem C2_single_fetch_time_witness :
    (fetch_coingecko_data exOkHttp "T" 1 250 4).2 =
      Except.ok [exStampedBtc] ∧
    getVal exStampedBtc "fetch_time" = Value.str "T" :=
  ⟨rfl,
   C2_single_fetch_time exOkHttp "T" 1 250 4 [exStampedBtc] rfl
     exStampedBtc (by decide)⟩

/-! ### Claim C7 -/

/-- C7: if any requested page answers a non-success status other than 429
(status ≥ 400, ≠ 429), the Fetcher raises and the run aborts with that
error before any load: both warehouse tables are left exactly as they
were, and the pipeline reports the error. -/
theorem C7_hard_failure_aborts (http : Nat → HttpResp) (now : String)
    (pages perPage delay : Nat) (wh : Warehouse) (p : Nat)
    (hp : p ∈ List.range' 1 pages)
    (h400 : 400 ≤ (http p).status) (h429 : (http p).status ≠ 429) :
    ∃ e, runPipeline http now pages perPage delay wh = (wh, some e) ∧
      (runPipeline http now pages perPage delay wh).1.raw = wh.raw ∧
      (runPipeline http now pages perPage delay wh).1.clean = wh.clean := by
  obtain ⟨e, he, _⟩ :=
    fetchPages_error_of_mem http delay (List.range' 1 pages) p hp h400 h429
  have hfe : (fetch_coingecko_data http now pages perPage delay).2 =
      Except.error e := by
    unfold fetch_coingecko_data
    rw [he]
    rfl
  have hrun : runPipeline http now pages perPage delay wh = (wh, some e) := by
    unfold runPipeline
    rw [hfe]
  exact ⟨e, hrun, by rw [hrun], by rw [hrun]⟩

/-- C7 witness: a three-page run against the upstream whose page 2
answers HTTP 500 aborts with error 500 and leaves the warehouse
untouched. -/
theorem C7_hard_failure_aborts_witness :
    (2 ∈ List.range' 1 3 ∧ 400 ≤ (exErrHttp 2).status ∧
      (exErrHttp 2).status ≠ 429) ∧
    ∃ e, runPipeline exErrHttp "T" 3 250 4 ⟨[], []⟩ = (⟨[], []⟩, some e) ∧
      (runPipeline exErrHttp "T" 3 250 4 ⟨[], []⟩).1.raw = [] ∧
      (runPipeline exErrHttp "T" 3 250 4 ⟨[], []⟩).1.clean = [] :=
  ⟨⟨by decide, by decide, by decide⟩,
   C7_hard_failure_aborts exErrHttp "T" 3 250 4 ⟨[], []⟩ 2
     (by decide) (by decide) (by decide)⟩

/-! ### Claim C8 -/

/-- C8: when all 8 pages (page size 250) succeed with at most 250 rows
each, the combined batch is the concatenation of the per-page responses,
has at most 2000 rows, and every row carries the one timestamp `now`. -/
theorem C8_eight_pages_bound (http : Nat → HttpResp) (now : String)
    (delay : Nat)
    (h : ∀ p ∈ List.range' 1 8,
      (http p).status < 400 ∧ (http p).data.length ≤ 250) :
    (fetch_coingecko_data http now 8 250 delay).2 =
      Except.ok
        (((List.range' 1 8).flatMap fun p => (http p).data).map
          (fun row => setCol row "fetch_time" (Value.str now))) ∧
    ∀ rows, (fetch_coingecko_data http now 8 250 delay).2 =
        Except.ok rows →
      rows.length ≤ 2000 ∧
        ∀ r ∈ rows, getVal r "fetch_time" = Value.str now := by
  have hok := fetchPages_ok_of_success http delay (List.range' 1 8)
    (fun p hp => (h p hp).1)
  have hmain : (fetch_coingecko_data http now 8 250 delay).2 =
      Except.ok
        (((List.range' 1 8).flatMap fun p => (http p).data).map
          (fun row => setCol row "fetch_time" (Value.str now))) := by
    unfold fetch_coingecko_data
    rw [hok]
    rfl
  refine ⟨hmain, ?_⟩
  intro rows hrows
  rw [hmain] at hrows
  cases hrows
  constructor
  · rw [List.length_map]
    have hb := length_flatMap_le http 250 (List.range' 1 8)
      (fun p hp => (h p hp).2)
    simpa using hb
  · intro r hr
    rcases List.mem_map.mp hr with ⟨r0, _, rfl⟩
    exact getVal_setCol_self r0 "fetch_time" (Value.str now)

/-- C8 witness: the always-succeeding one-row-per-page upstream satisfies
the hypothesis, and the theorem applies to it. -/
theorem C8_eight_pages_bound_witness :
    (∀ p ∈ List.range' 1 8,
      (exOkHttp p).status < 400 ∧ (exOkHttp p).data.length ≤ 250) ∧
    ((fetch_coingecko_data exOkHttp "T" 8 250 4).2 =
      Except.ok
        (((List.range' 1 8).flatMap fun p => (exOkHttp p).data).map
          (fun row => setCol row "fetch_time" (Value.str "T"))) ∧
    ∀ rows, (fetch_coingecko_data exOkHttp "T" 8 250 4).2 =
        Except.ok rows →
      rows.length ≤ 2000 ∧
        ∀ r ∈ rows, getVal r "fetch_time" = Value.str "T") :=
  ⟨by decide, C8_eight_pages_bound exOkHttp "T" 4 (by decide)⟩

/-! ### Bridging lemmas for the Cleaner -/

theorem clean_data_cols_eq (raw : DataFrame) :
    (clean_data raw).cols =
      keep_cols.filter (fun c => decide (c ∈ raw.cols)) := rfl

theorem clean_data_rows_eq (raw : DataFrame) :
    (clean_data raw).rows =
      ((dropDupBy "id" (queryLatestBatch raw.rows) []).filter
          keyFieldsPresent).map
        (projectRow (keep_cols.filter (fun c => decide (c ∈ raw.cols)))) :=
  rfl

theorem map_congr_mem {α β : Type} (f g : α → β) :
    ∀ (l : List α), (∀ a ∈ l, f a = g a) → l.map f = l.map g := by
  intro l
  induction l with
  | nil => intro _; rfl
  | cons a l ih =>
      intro h
      rw [List.map_cons, List.map_cons, h a (List.mem_cons_self a l),
        ih fun b hb => h b (List.mem_cons_of_mem a hb)]

theorem mem_clean_data_rows (raw : DataFrame) (r : Row)
    (h : r ∈ (clean_data raw).rows) :
    ∃ s, s ∈ dropDupBy "id" (queryLatestBatch raw.rows) [] ∧
      keyFieldsPresent s = true ∧
      r = projectRow (keep_cols.filter (fun c => decide (c ∈ raw.cols))) s := by
  rw [clean_data_rows_eq] at h
  rcases List.mem_map.mp h with ⟨s, hs, rfl⟩
  obtain ⟨hs1, hs2⟩ := List.mem_filter.mp hs
  exact ⟨s, hs1, hs2, rfl⟩

theorem mem_keep_cols_filter (raw : DataFrame) (c : String)
    (hk : c ∈ keep_cols) (hc : c ∈ raw.cols) :
    c ∈ keep_cols.filter (fun c => decide (c ∈ raw.cols)) :=
  List.mem_filter.mpr ⟨hk, by simpa using hc⟩

/-! ### Claim C3 -/

/-- C3: the Cleaner's output never contains two rows with the same id,
and each output row is the projection of the first row, in the order the
latest-batch query returned, that carries its id. Hypothesis: the raw
table has an `id` column (without one, `drop_duplicates(subset=["id"])`
itself would fail in pandas). -/
theorem C3_dedup_keeps_first (raw : DataFrame) (h : "id" ∈ raw.cols) :
    ((clean_data raw).rows.map (fun r => getVal r "id")).Nodup ∧
    ∀ r ∈ (clean_data raw).rows,
      ∃ s, (queryLatestBatch raw.rows).find?
          (fun t => decide (getVal t "id" = getVal r "id")) = some s ∧
        r = projectRow (clean_data raw).cols s := by
  have hid : "id" ∈ keep_cols.filter (fun c => decide (c ∈ raw.cols)) :=
    mem_keep_cols_filter raw "id" (by decide) h
  constructor
  · have heq : (clean_data raw).rows.map (fun r => getVal r "id") =
        ((dropDupBy "id" (queryLatestBatch raw.rows) []).filter
            keyFieldsPresent).map (fun s => getVal s "id") := by
      rw [clean_data_rows_eq, List.map_map]
      exact map_congr_mem _ _ _
        (fun s _ => getVal_projectRow _ s "id" hid)
    rw [heq]
    have hdd := nodup_keys_dropDupBy "id" (queryLatestBatch raw.rows) []
    exact hdd.sublist
      ((List.filter_sublist _).map (fun s => getVal s "id"))
  · intro r hr
    obtain ⟨s, hs, _, rfl⟩ := mem_clean_data_rows raw r hr
    obtain ⟨_, hfind⟩ :=
      mem_dropDupBy "id" (queryLatestBatch raw.rows) [] s hs
    have hval : getVal
        (projectRow (keep_cols.filter (fun c => decide (c ∈ raw.cols))) s)
        "id" = getVal s "id" := getVal_projectRow _ s "id" hid
    refine ⟨s, ?_, rfl⟩
    rw [hval]
    exact hfind

/-- C3 witness: the spec's cleaning scenario — the latest batch of the
example raw table holds a bitcoin row, a duplicate-id bitcoin row and a
null-id row; the cleaned output's ids are duplicate-free. -/
theorem C3_dedup_keeps_first_witness :
    ("id" ∈ exRaw.cols) ∧
    (((clean_data exRaw).rows.map (fun r => getVal r "id")).Nodup ∧
    ∀ r ∈ (clean_data exRaw).rows,
      ∃ s, (queryLatestBatch exRaw.rows).find?
          (fun t => decide (getVal t "id" = getVal r "id")) = some s ∧
        r = projectRow (clean_data exRaw).cols s) :=
  ⟨by decide, C3_dedup_keeps_first exRaw (by decide)⟩

/-! ### Claim C4 -/

/-- C4: the Cleaner's output never contains a row whose id, symbol or
name is null — such rows are dropped by `dropna`, while the run itself
still succeeds (the Cleaner is a total function). Hypotheses: the raw
table has the three key columns (without them pandas `dropna(subset=…)`
itself would fail). -/
theorem C4_no_null_key_fields (raw : DataFrame)
    (h1 : "id" ∈ raw.cols) (h2 : "symbol" ∈ raw.cols)
    (h3 : "name" ∈ raw.cols) :
    ∀ r ∈ (clean_data raw).rows,
      getVal r "id" ≠ Value.null ∧ getVal r "symbol" ≠ Value.null ∧
        getVal r "name" ≠ Value.null := by
  intro r hr
  obtain ⟨s, _, hkey, rfl⟩ := mem_clean_data_rows raw r hr
  have hprops := of_decide_eq_true hkey
  obtain ⟨hk1, hk2, hk3⟩ := hprops
  refine ⟨?_, ?_, ?_⟩
  · rw [getVal_projectRow _ s "id"
      (mem_keep_cols_filter raw "id" (by decide) h1)]
    exact hk1
  · rw [getVal_projectRow _ s "symbol"
      (mem_keep_cols_filter raw "symbol" (by decide) h2)]
    exact hk2
  · rw [getVal_projectRow _ s "name"
      (mem_keep_cols_filter raw "name" (by decide) h3)]
    exact hk3

/-- C4 witness: in the example raw table's cleaned output, the surviving
bitcoin row has non-null id, symbol and name. -/
theorem C4_no_null_key_fields_witness :
    ("id" ∈ exRaw.cols ∧ "symbol" ∈ exRaw.cols ∧ "name" ∈ exRaw.cols) ∧
    projectRow (clean_data exRaw).cols exRowBtc ∈ (clean_data exRaw).rows ∧
    (getVal (projectRow (clean_data exRaw).cols exRowBtc) "id" ≠ Value.null ∧
      getVal (projectRow (clean_data exRaw).cols exRowBtc) "symbol" ≠
        Value.null ∧
      getVal (projectRow (clean_data exRaw).cols exRowBtc) "name" ≠
        Value.null) :=
  ⟨⟨by decide, by decide, by decide⟩, by decide,
   C4_no_null_key_fields exRaw (by decide) (by decide) (by decide)
     (projectRow (clean_data exRaw).cols exRowBtc) (by decide)⟩

/-! ### Claim C5 -/

/-- C5: every Cleaner output row is a column-projection of a row of the
raw table whose fetch_time equals the maximum fetch_time present there
(no fetch_time in the table is lexicographically above it) — the Cleaner
fabricates no rows and reprocesses no earlier batch. -/
theorem C5_rows_from_latest_batch (raw : DataFrame) :
    ∀ r ∈ (clean_data raw).rows,
      ∃ m, maxFetchTime raw.rows = some m ∧
        (∀ t ∈ raw.rows, ∀ u, getVal t "fetch_time" = Value.str u →
          strLtB m u = false) ∧
        ∃ s ∈ raw.rows, getVal s "fetch_time" = Value.str m ∧
          r = projectRow (clean_data raw).cols s := by
  intro r hr
  obtain ⟨s, hs, _, rfl⟩ := mem_clean_data_rows raw r hr
  have hsL : s ∈ queryLatestBatch raw.rows :=
    (dropDupBy_sublist "id" (queryLatestBatch raw.rows) []).mem hs
  obtain ⟨hsraw, m, hmax, hft⟩ := mem_queryLatestBatch raw.rows s hsL
  exact ⟨m, hmax, maxFetchTime_isMax raw.rows m hmax,
    s, hsraw, hft, by rw [clean_data_cols_eq]⟩

/-- C5 witness: the theorem applied to the example raw table at its one
output row, the projected bitcoin row. -/
theorem C5_rows_from_latest_batch_witness :
    projectRow (clean_data exRaw).cols exRowBtc ∈ (clean_data exRaw).rows ∧
    (∃ m, maxFetchTime exRaw.rows = some m ∧
      (∀ t ∈ exRaw.rows, ∀ u, getVal t "fetch_time" = Value.str u →
        strLtB m u = false) ∧
      ∃ s ∈ exRaw.rows, getVal s "fetch_time" = Value.str m ∧
        projectRow (clean_data exRaw).cols exRowBtc =
          projectRow (clean_data exRaw).cols s) :=
  ⟨by decide,
   C5_rows_from_latest_batch exRaw
     (projectRow (clean_data exRaw).cols exRowBtc) (by decide)⟩

/-! ### Claim C10 -/

/-- C10: the Cleaner's output columns are exactly the `keep_cols` that
exist in the input, in `keep_cols`' fixed order (a sublist of
`keep_cols`), and every output row carries exactly those columns — no
column outside the list survives. -/
theorem C10_projection_columns (raw : DataFrame) :
    (clean_data raw).cols.Sublist keep_cols ∧
    (∀ c, c ∈ (clean_data raw).cols ↔ c ∈ keep_cols ∧ c ∈ raw.cols) ∧
    ∀ r ∈ (clean_data raw).rows, r.map Prod.fst = (clean_data raw).cols := by
  refine ⟨?_, ?_, ?_⟩
  · rw [clean_data_cols_eq]
    exact List.filter_sublist keep_cols
  · intro c
    rw [clean_data_cols_eq]
    simp [List.mem_filter]
  · intro r hr
    obtain ⟨s, _, _, rfl⟩ := mem_clean_data_rows raw r hr
    rw [clean_data_cols_eq]
    exact projectRow_keys _ s

/-- C10 witness: the theorem applied to the example raw table. -/
theorem C10_projection_columns_witness :
    (clean_data exRaw).cols.Sublist keep_cols ∧
    (∀ c, c ∈ (clean_data exRaw).cols ↔ c ∈ keep_cols ∧ c ∈ exRaw.cols) ∧
    ∀ r ∈ (clean_data exRaw).rows,
      r.map Prod.fst = (clean_data exRaw).cols :=
  C10_projection_columns exRaw

/-! ### Claim C6 -/

theorem mem_ensureDataset_self (s : List String) (ds : String) :
    ds ∈ (ensureDataset s ds).1 := by
  unfold ensureDataset
  by_cases h : ds ∈ s
  · rw [if_pos h]; exact h
  · rw [if_neg h]; simp

theorem mem_ensureDataset_of_mem (s : List String) (d x : String)
    (h : x ∈ s) : x ∈ (ensureDataset s d).1 := by
  unfold ensureDataset
  by_cases hd : d ∈ s
  · rw [if_pos hd]; exact h
  · rw [if_neg hd]; exact List.mem_append_left _ h

theorem ensureDataset_of_mem (s : List String) (ds : String)
    (h : ds ∈ s) : ensureDataset s ds = (s, false) := by
  unfold ensureDataset
  rw [if_pos h]

/-- C6: the ensure-dataset step is idempotent. Running it a second time,
with the dataset already present, changes nothing and issues no create
call (the returned flag is `false`); the first run leaves exactly one
copy of a previously absent dataset; and the whole module-level loop over
both datasets is idempotent as well. -/
theorem C6_ensure_dataset_idempotent (s : List String) (ds : String) :
    ensureDataset (ensureDataset s ds).1 ds = ((ensureDataset s ds).1, false) ∧
    (ds ∉ s → (ensureDataset s ds).1.count ds = 1) ∧
    (ds ∈ s → (ensureDataset s ds).1 = s) ∧
    ensureDatasets (ensureDatasets s) = ensureDatasets s := by
  refine ⟨?_, ?_, ?_, ?_⟩
  · exact ensureDataset_of_mem _ ds (mem_ensureDataset_self s ds)
  · intro h
    unfold ensureDataset
    rw [if_neg h, List.count_append]
    have h0 : s.count ds = 0 := List.count_eq_zero.mpr h
    rw [h0]
    simp
  · intro h
    unfold ensureDataset
    rw [if_pos h]
  · have hraw : "crypto_raw" ∈ ensureDatasets s := by
      unfold ensureDatasets datasetList
      simp only [List.foldl_cons, List.foldl_nil]
      exact mem_ensureDataset_of_mem _ _ _ (mem_ensureDataset_self s _)
    have hclean : "crypto_clean" ∈ ensureDatasets s := by
      unfold ensureDatasets datasetList
      simp only [List.foldl_cons, List.foldl_nil]
      exact mem_ensureDataset_self _ _
    show datasetList.foldl (fun acc ds => (ensureDataset acc ds).1)
        (ensureDatasets s) = ensureDatasets s
    unfold datasetList
    simp only [List.foldl_cons, List.foldl_nil]
    rw [ensureDataset_of_mem _ _ hraw, ensureDataset_of_mem _ _ hclean]

/-- C6 witness: the theorem applied to an initially empty dataset store
with the raw dataset's name. -/
theorem C6_ensure_dataset_idempotent_witness :
    ensureDataset (ensureDataset [] "crypto_raw").1 "crypto_raw" =
      ((ensureDataset [] "crypto_raw").1, false) ∧
    ("crypto_raw" ∉ ([] : List String) →
      (ensureDataset [] "crypto_raw").1.count "crypto_raw" = 1) ∧
    ("crypto_raw" ∈ ([] : List String) →
      (ensureDataset [] "crypto_raw").1 = []) ∧
    ensureDatasets (ensureDatasets []) = ensureDatasets [] :=
  C6_ensure_dataset_idempotent [] "crypto_raw"

/-! ### Claim C9 -/

theorem forall₂_map_self {α β : Type} (R : α → β → Prop) (g : α → β) :
    ∀ (l : List α), (∀ a ∈ l, R a (g a)) → List.Forall₂ R l (l.map g) := by
  intro l
  induction l with
  | nil => intro _; simp
  | cons a l ih =>
      intro h
      exact List.Forall₂.cons (h a (List.mem_cons_self a l))
        (ih fun b hb => h b (List.mem_cons_of_mem a hb))

theorem forall₂_refl_of_mem {α : Type} (R : α → α → Prop) :
    ∀ (l : List α), (∀ a ∈ l, R a a) → List.Forall₂ R l l := by
  intro l
  induction l with
  | nil => intro _; simp
  | cons a l ih =>
      intro h
      exact List.Forall₂.cons (h a (List.mem_cons_self a l))
        (ih fun b hb => h b (List.mem_cons_of_mem a hb))

/-- C9: each loader appends exactly one batch of rows to its own table
(the raw loader leaves the clean table alone and vice versa), and the
appended rows agree with the input batch on every field except
`fetch_time`: when the batch has a `fetch_time` column that field is
coerced to its string representation, and when it has none the rows are
appended completely unchanged. -/
theorem C9_loaders_touch_only_fetch_time (wh : Warehouse) (df : DataFrame) :
    ∃ newRows,
      (load_raw_to_bigquery wh df).raw = wh.raw ++ newRows ∧
      (load_raw_to_bigquery wh df).clean = wh.clean ∧
      (load_clean_to_bigquery wh df).clean = wh.clean ++ newRows ∧
      (load_clean_to_bigquery wh df).raw = wh.raw ∧
      List.Forall₂
        (fun old new =>
          (∀ k, k ≠ "fetch_time" → getVal new k = getVal old k) ∧
          getVal new "fetch_time" =
            (if "fetch_time" ∈ df.cols then
              Value.str (valueStr (getVal old "fetch_time"))
            else getVal old "fetch_time"))
        df.rows newRows ∧
      ("fetch_time" ∉ df.cols → newRows = df.rows) := by
  by_cases hmem : "fetch_time" ∈ df.cols
  · refine ⟨df.rows.map (fun r =>
      setCol r "fetch_time" (Value.str (valueStr (getVal r "fetch_time")))),
      ?_, rfl, ?_, rfl, ?_, ?_⟩
    · unfold load_raw_to_bigquery load_table
      rw [if_pos hmem]
    · unfold load_clean_to_bigquery load_table
      rw [if_pos hmem]
    · refine forall₂_map_self _ _ df.rows fun r _ => ⟨?_, ?_⟩
      · intro k hk
        exact getVal_setCol_ne r "fetch_time" k _ hk
      · rw [if_pos hmem]
        exact getVal_setCol_self r "fetch_time" _
    · intro h; exact absurd hmem h
  · refine ⟨df.rows, ?_, rfl, ?_, rfl, ?_, fun _ => rfl⟩
    · unfold load_raw_to_bigquery load_table
      rw [if_neg hmem]
    · unfold load_clean_to_bigquery load_table
      rw [if_neg hmem]
    · refine forall₂_refl_of_mem _ df.rows fun r _ => ⟨fun _ _ => rfl, ?_⟩
      rw [if_neg hmem]

/-- C9 witness: the theorem applied to a warehouse already holding the
old ethereum row and the example raw batch. -/
theorem C9_loaders_touch_only_fetch_time_witness :
    ∃ newRows,
      (load_raw_to_bigquery ⟨[exRowEthOld], []⟩ exRaw).raw =
        [exRowEthOld] ++ newRows ∧
      (load_raw_to_bigquery ⟨[exRowEthOld], []⟩ exRaw).clean = [] ∧
      (load_clean_to_bigquery ⟨[exRowEthOld], []⟩ exRaw).clean =
        [] ++ newRows ∧
      (load_clean_to_bigquery ⟨[exRowEthOld], []⟩ exRaw).raw =
        [exRowEthOld] ∧
      List.Forall₂
        (fun old new =>
          (∀ k, k ≠ "fetch_time" → getVal new k = getVal old k) ∧
          getVal new "fetch_time" =
            (if "fetch_time" ∈ exRaw.cols then
              Value.str (valueStr (getVal old "fetch_time"))
            else getVal old "fetch_time"))
        exRaw.rows newRows ∧
      ("fetch_time" ∉ exRaw.cols → newRows = exRaw.rows) :=
  C9_loaders_touch_only_fetch_time ⟨[exRowEthOld], []⟩ exRaw

end CoinGecko
